import Mathlib

/-!
Verification of the pyfim repository (floating-point support example
`pyfim/ex/fltsupp.py` and the package script `setup.py`).

The mining functions `apriori`, `eclat`, `fpgrowth` that `fltsupp.py` imports
live in the compiled `fim` C extension, which is not part of the Python
sources; where a claim depends on them they are modelled from the spec
(section 4.3), as noted on each definition.  Transaction weights are embedded
as rationals (the script's literals 0.5, 1.2, ... are exact dyadics).
-/

namespace PyFim

/-- A transaction database: each entry is a transaction (a finite set of item
codes) together with its weight. -/
abbrev DB := List (Finset ℕ × ℚ)

/-- Weighted support of an itemset `s`: the sum of the weights of the
transactions that contain `s` (summing weights, not counting occurrences). -/
def support : DB → Finset ℕ → ℚ
  | [], _ => 0
  | tw :: rest, s => (if s ⊆ tw.1 then tw.2 else 0) + support rest s

/-- Total weighted transaction count of a database. -/
def totalWeight (db : DB) : ℚ := (db.map Prod.snd).sum

/-- The item universe of a database: union of all transactions. -/
def items : DB → Finset ℕ
  | [] => ∅
  | tw :: rest => tw.1 ∪ items rest

/-- All transaction weights are nonnegative (the data model requires positive
weights; nonnegativity is all the algorithms need). -/
def WeightsNonneg (db : DB) : Prop := ∀ tw ∈ db, 0 ≤ tw.2

/-- Python dict insertion: if the key is already bound the value is replaced
in place (later duplicate key wins), otherwise the pair is appended. -/
def dictInsert (d : List (List ℕ × ℚ)) (k : List ℕ) (v : ℚ) :
    List (List ℕ × ℚ) :=
  if d.any (fun p => p.1 = k) then
    d.map (fun p => if p.1 = k then (k, v) else p)
  else d ++ [(k, v)]

/-- Evaluation of a Python dict literal: the key/value pairs are inserted in
textual order into an initially empty dict. -/
def dictOfPairs (l : List (List ℕ × ℚ)) : List (List ℕ × ℚ) :=
  l.foldl (fun d p => dictInsert d p.1 p.2) []

/-- Lookup in the dict model. -/
def dictLookup (d : List (List ℕ × ℚ)) (k : List ℕ) : Option ℚ :=
  (d.find? (fun p => p.1 = k)).map Prod.snd

/-- The key/value pairs of the `tracts` dict literal of `fltsupp.py`, in
textual order.  Note the duplicate key `(1,2,3,4)` (weights 0.3 and 1.0). -/
def tractsEntries : List (List ℕ × ℚ) :=
  [([1, 2, 3], 0.5),
   ([1, 4, 5], 1.2),
   ([2, 3, 4], 0.8),
   ([1, 2, 3, 4], 0.3),
   ([2, 3], 1.5),
   ([1, 2, 4], 0.9),
   ([4, 5], 0.6),
   ([1, 2, 3, 4], 1.0),
   ([3, 4, 5], 0.7)]

/-- The `tracts` dict of `fltsupp.py` as evaluated by Python. -/
def tracts : List (List ℕ × ℚ) := dictOfPairs tractsEntries

/-- The transaction database handed to the mining calls: each dict key becomes
an itemset, its value the transaction weight. -/
def tractsDB : DB := tracts.map (fun p => (p.1.toFinset, p.2))

/-- Modelled from the spec: resolution of the support threshold argument.  A
negative number is an absolute minimum weighted count, a non-negative number a
minimum percentage of the total weighted transaction count.  (The code that
resolves the threshold is in the compiled `fim` extension, absent from the
Python sources.) -/
def resolveSupp (supp total : ℚ) : ℚ :=
  if supp < 0 then -supp else supp / 100 * total

/-- The declarative description of the "all frequent" output, following the
spec's words: all itemsets drawn from the item universe whose weighted support
reaches the threshold.  The strategy implementations below are compared
against it. -/
def freqSets (db : DB) (t : ℚ) : Finset (Finset ℕ) :=
  (items db).powerset.filter (fun s => t ≤ support db s)

/-- The declarative (itemset, support) pairs, following the spec's words. -/
def freqPairs (db : DB) (t : ℚ) : Finset (Finset ℕ × ℚ) :=
  (freqSets db t).image (fun s => (s, support db s))

/-- Modelled from the spec: one frontier level of the breadth-first (apriori)
strategy.  Level `k+1` extends each size-`k` survivor with items larger than
its last code and keeps the candidates whose support reaches the threshold. -/
def aprioriLevel (db : DB) (t : ℚ) : ℕ → Finset (Finset ℕ)
  | 0 => ({∅} : Finset (Finset ℕ)).filter (fun s => t ≤ support db s)
  | k + 1 =>
    ((aprioriLevel db t k).biUnion (fun s =>
        ((items db).filter (fun i => ∀ j ∈ s, j < i)).image
          (fun i => insert i s))).filter
      (fun c => t ≤ support db c)

/-- Modelled from the spec: the breadth-first strategy runs level after level
(a level beyond the item count is necessarily empty) and reports each
surviving itemset with its support. -/
def aprioriAll (db : DB) (t : ℚ) : Finset (Finset ℕ × ℚ) :=
  (Finset.range ((items db).card + 1)).biUnion
    (fun k => (aprioriLevel db t k).image (fun s => (s, support db s)))

/-- The transaction at index `n` (the empty set past the end). -/
def tractAt (db : DB) (n : ℕ) : Finset ℕ := ((db.get? n).map Prod.fst).getD ∅

/-- The weight of the transaction at index `n` (zero past the end). -/
def weightAt (db : DB) (n : ℕ) : ℚ := ((db.get? n).map Prod.snd).getD 0

/-- The weight carried by a list of transaction indices. -/
def tidWeight (db : DB) (tids : List ℕ) : ℚ := (tids.map (weightAt db)).sum

/-- Vertical transaction list of an item: the ordered list of the indices of
the transactions that contain it. -/
def vlist (db : DB) (i : ℕ) : List ℕ :=
  (List.range db.length).filter (fun n => i ∈ tractAt db n)

/-- The ordered list of the indices of the transactions containing a given
itemset (the running tid list of the depth-first strategy). -/
def tidsFor (db : DB) (s : Finset ℕ) : List ℕ :=
  (List.range db.length).filter (fun n => s ⊆ tractAt db n)

/-- Modelled from the spec: the recursion of the depth-first
vertical-intersection (eclat) strategy.  `tids` is the tid list of the current
prefix `pfx`; each candidate item intersects it with the item's vertical list,
the support is the weight of the intersection, and recursion descends only
while that weight stays at or above the threshold. -/
def eclatRec (db : DB) (t : ℚ) : List ℕ → Finset ℕ → List ℕ → List (Finset ℕ × ℚ)
  | _, _, [] => []
  | tids, pfx, i :: rest =>
    (if t ≤ tidWeight db (tids.inter (vlist db i)) then
      (insert i pfx, tidWeight db (tids.inter (vlist db i))) ::
        eclatRec db t (tids.inter (vlist db i)) (insert i pfx) rest
     else []) ++ eclatRec db t tids pfx rest

/-- Modelled from the spec: the depth-first strategy starts from the empty
prefix, whose tid list is the whole database, and walks the items in
ascending code order. -/
def eclatAll (db : DB) (t : ℚ) : List (Finset ℕ × ℚ) :=
  (if t ≤ totalWeight db then [((∅ : Finset ℕ), totalWeight db)] else []) ++
    eclatRec db t (List.range db.length) ∅ ((items db).sort (fun a b => a ≤ b))

/-- Projection of the database onto an item: the transactions that contain
the item, with the item removed (the conditional database of the
tree-projection strategy). -/
def project (db : DB) (i : ℕ) : DB :=
  (db.filter (fun tw => i ∈ tw.1)).map (fun tw => (tw.1.erase i, tw.2))

/-- Modelled from the spec: the recursion of the tree/prefix-tree (fpgrowth)
strategy.  For each frequent item it mines the conditional database projected
onto that item and prepends the item to every itemset found there; supports
are read off the conditional databases instead of re-scanning the original
one. -/
def fpgRec (t : ℚ) : List ℕ → DB → List (Finset ℕ × ℚ)
  | [], _ => []
  | i :: rest, db =>
    (if t ≤ support db {i} then
      ({i}, support db {i}) ::
        (fpgRec t rest (project db i)).map (fun p => (insert i p.1, p.2))
     else []) ++ fpgRec t rest db

/-- Modelled from the spec: the tree-projection strategy over the whole item
universe. -/
def fpgrowthAll (db : DB) (t : ℚ) : List (Finset ℕ × ℚ) :=
  (if t ≤ totalWeight db then [((∅ : Finset ℕ), totalWeight db)] else []) ++
    fpgRec t ((items db).sort (fun a b => a ≤ b)) db

/-- The pattern reporter's size filter: keep the itemsets whose cardinality
lies between `zmin` and `zmax`. -/
def sizeFilter (zmin zmax : ℕ) (ps : Finset (Finset ℕ × ℚ)) :
    Finset (Finset ℕ × ℚ) :=
  ps.filter (fun p => zmin ≤ p.1.card ∧ p.1.card ≤ zmax)

/-- Modelled from the spec: the `apriori` entry point called by `fltsupp.py`
(threshold resolution, breadth-first search, size filter). -/
def apriori (db : DB) (supp : ℚ) (zmin zmax : ℕ) : Finset (Finset ℕ × ℚ) :=
  sizeFilter zmin zmax (aprioriAll db (resolveSupp supp (totalWeight db)))

/-- Modelled from the spec: the `eclat` entry point called by `fltsupp.py`. -/
def eclat (db : DB) (supp : ℚ) (zmin zmax : ℕ) : Finset (Finset ℕ × ℚ) :=
  sizeFilter zmin zmax (eclatAll db (resolveSupp supp (totalWeight db))).toFinset

/-- Modelled from the spec: the `fpgrowth` entry point called by
`fltsupp.py`. -/
def fpgrowth (db : DB) (supp : ℚ) (zmin zmax : ℕ) : Finset (Finset ℕ × ℚ) :=
  sizeFilter zmin zmax (fpgrowthAll db (resolveSupp supp (totalWeight db))).toFinset

/-- An association rule: antecedent, consequent, support of the whole
itemset, confidence. -/
structure Rule where
  ante : Finset ℕ
  cons : Finset ℕ
  supp : ℚ
  conf : ℚ
deriving DecidableEq

/-- Modelled from the spec: the RuleGenerator's work on one frequent itemset
of size at least 2.  Every non-empty proper subset is a candidate antecedent,
the antiset is the consequent, the confidence is support(itemset) divided by
support(antecedent), and rules below the confidence threshold are
discarded. -/
def rulesFor (db : DB) (minconf : ℚ) (s : Finset ℕ) : Finset Rule :=
  if 2 ≤ s.card then
    (s.powerset.filter (fun a =>
        a ≠ ∅ ∧ a ≠ s ∧ minconf ≤ support db s / support db a)).image
      (fun a => ⟨a, s \ a, support db s, support db s / support db a⟩)
  else ∅

/-- Modelled from the spec: rule generation over all frequent itemsets. -/
def genRules (db : DB) (t minconf : ℚ) : Finset Rule :=
  (freqSets db t).biUnion (rulesFor db minconf)

/-- The branches of the `tid` dispatch of `fltsupp.py`. -/
inductive Branch
  | printFpgrowthDoc
  | printEclatDoc
  | printAprioriDoc
  | runApriori
  | runEclat
  | runFpgrowth
  | runFim
deriving DecidableEq

/-- The `tid` dispatch of `fltsupp.py`: the chained `if tid < -2 / -1 / 0`
doc branches, then inside the `else` block the chained `if tid < 1 / 2 / 3`
mining branches with `fim` as the final `else`. -/
def dispatch (tid : ℤ) : Branch :=
  if tid < -2 then Branch.printFpgrowthDoc
  else if tid < -1 then Branch.printEclatDoc
  else if tid < 0 then Branch.printAprioriDoc
  else if tid < 1 then Branch.runApriori
  else if tid < 2 then Branch.runEclat
  else if tid < 3 then Branch.runFpgrowth
  else Branch.runFim

/-- The two exceptions `tid = int(argv[1])` can raise. -/
inductive ScriptErr
  | indexError
  | valueError
deriving DecidableEq

/-- Numeric value of a digit string (none if empty or not all digits). -/
def digitsVal (cs : List Char) : Option ℕ :=
  if cs = [] then none
  else if cs.all Char.isDigit then
    some (cs.foldl (fun n c => 10 * n + (c.toNat - 48)) 0)
  else none

/-- Model of Python's `int(str)`: optional sign followed by digits
(surrounding whitespace handling is immaterial to the claims and omitted). -/
def parseInt (s : String) : Option ℤ :=
  match s.toList with
  | '-' :: cs => (digitsVal cs).map (fun n => -(n : ℤ))
  | '+' :: cs => (digitsVal cs).map (fun n => (n : ℤ))
  | cs => (digitsVal cs).map (fun n => (n : ℤ))

/-- The control flow of `fltsupp.py` up to the dispatch: `argv[1]` raises
IndexError when absent, `int(...)` raises ValueError when unparseable, and
only when both succeed is a branch (doc printing or mining) reached. -/
def script (argv : List String) : Except ScriptErr Branch :=
  match argv.get? 1 with
  | none => Except.error ScriptErr.indexError
  | some a =>
    match parseInt a with
    | none => Except.error ScriptErr.valueError
    | some tid => Except.ok (dispatch tid)

/-- The header list of `setup.py`. -/
def headers : List String :=
  ["util/src/arrays.h", "util/src/memsys.h", "util/src/symtab.h",
   "util/src/random.h", "util/src/sigint.h", "util/src/fntypes.h",
   "math/src/gamma.h", "math/src/chi2.h", "math/src/ruleval.h",
   "tract/src/tract.h", "tract/src/fim16.h", "tract/src/patspec.h",
   "tract/src/clomax.h", "tract/src/report.h", "tract/src/patred.h",
   "apriori/src/istree.h", "apriori/src/apriori.h", "eclat/src/eclat.h",
   "fpgrowth/src/fpgrowth.h", "fpgrowth/src/fpgpsp.h", "sam/src/sam.h",
   "relim/src/relim.h", "carpenter/src/repotree.h",
   "carpenter/src/carpenter.h", "ista/src/pfxtree.h", "ista/src/pattree.h",
   "ista/src/ista.h", "accretion/src/accretion.h"]

/-- The lines `setup.py` writes to `MANIFEST.in`: one include line per
header. -/
def manifestLines : List String :=
  headers.map (fun h => "include " ++ h ++ "\n")

/-- The lines `setup.py` writes to `README`. -/
def readmeLines : List String :=
  ["Call help() on the functions\n", "  fim\n", "  arules\n",
   "  apriori\n", "  eclat\n", "  fpgrowth\n", "  sam\n", "  relim\n",
   "  carpenter\n", "  ista\n", "  accretion\n", "  apriacc\n",
   "  patspec\n", "  estpsp\n",
   "for explanations about their parameters.\n"]

/-- A file system tracked by content: a map from file name to the list of
lines, `none` when the file does not exist. -/
abbrev FS := String → Option (List String)

/-- Writing a file (mode `wt`: created or truncated, then holds exactly the
written lines). -/
def fsWrite (fs : FS) (name : String) (lines : List String) : FS :=
  fun n => if n = name then some lines else fs n

/-- `os.remove`: the file no longer exists afterwards. -/
def fsRemove (fs : FS) (name : String) : FS :=
  fun n => if n = name then none else fs n

/-- The file-system trace of `setup.py`: write `MANIFEST.in` and `README`,
call `setup()` (an arbitrary effect `eff` of the external `distutils` call),
then remove both files.  Returns the state `setup()` sees and the final
state. -/
def setupRun (eff : FS → FS) (fs0 : FS) : FS × FS :=
  let fs1 := fsWrite fs0 "MANIFEST.in" manifestLines
  let fs2 := fsWrite fs1 "README" readmeLines
  let fs3 := eff fs2
  (fs2, fsRemove (fsRemove fs3 "MANIFEST.in") "README")

/-- A one-transaction database used to exercise the boundary case where the
support of an itemset equals the threshold exactly. -/
def oneTractDB : DB := [({1, 2}, 1.6)]

/-- A tiny database used to exercise the rule generator. -/
def ruleDB : DB := [({1, 2}, 1.0)]

/-! ## Basic facts about weighted support -/

lemma support_nil (s : Finset ℕ) : support [] s = 0 := rfl

lemma support_cons (tw : Finset ℕ × ℚ) (rest : DB) (s : Finset ℕ) :
    support (tw :: rest) s = (if s ⊆ tw.1 then tw.2 else 0) + support rest s :=
  rfl

lemma totalWeight_cons (tw : Finset ℕ × ℚ) (rest : DB) :
    totalWeight (tw :: rest) = tw.2 + totalWeight rest := by
  simp [totalWeight]

lemma weightsNonneg_of_cons {tw : Finset ℕ × ℚ} {rest : DB}
    (hw : WeightsNonneg (tw :: rest)) : WeightsNonneg rest :=
  fun x hx => hw x (List.mem_cons_of_mem _ hx)

/-- Support is antitone: a superset is contained in fewer transactions, so
(with nonnegative weights) it weighs no more. -/
lemma support_mono (db : DB) (hw : WeightsNonneg db) {s₁ s₂ : Finset ℕ}
    (h : s₁ ⊆ s₂) : support db s₂ ≤ support db s₁ := by
  induction db with
  | nil => simp [support]
  | cons tw rest ih =>
    have hw0 : 0 ≤ tw.2 := hw tw (List.mem_cons_self _ _)
    refine add_le_add ?_ (ih (weightsNonneg_of_cons hw))
    by_cases h2 : s₂ ⊆ tw.1
    · rw [if_pos h2, if_pos (h.trans h2)]
    · rw [if_neg h2]
      by_cases h1 : s₁ ⊆ tw.1
      · rw [if_pos h1]; exact hw0
      · rw [if_neg h1]

lemma support_empty (db : DB) : support db ∅ = totalWeight db := by
  induction db with
  | nil => simp [support, totalWeight]
  | cons tw rest ih => simp [support_cons, totalWeight_cons, ih]

lemma mem_items {db : DB} {i : ℕ} : i ∈ items db ↔ ∃ tw ∈ db, i ∈ tw.1 := by
  induction db with
  | nil => simp [items]
  | cons tw rest ih => simp [items, ih]

/-- A transaction of the database is a subset of the item universe. -/
lemma tract_subset_items {db : DB} {tw : Finset ℕ × ℚ} (h : tw ∈ db) :
    tw.1 ⊆ items db :=
  fun i hi => mem_items.mpr ⟨tw, h, hi⟩

lemma mem_freqSets {db : DB} {t : ℚ} {s : Finset ℕ} :
    s ∈ freqSets db t ↔ s ⊆ items db ∧ t ≤ support db s := by
  simp [freqSets, Finset.mem_filter, Finset.mem_powerset]

lemma mem_freqPairs {db : DB} {t : ℚ} {p : Finset ℕ × ℚ} :
    p ∈ freqPairs db t ↔
      p.1 ⊆ items db ∧ t ≤ support db p.1 ∧ p.2 = support db p.1 := by
  simp only [freqPairs, Finset.mem_image, mem_freqSets]
  constructor
  · rintro ⟨s, ⟨hs, hts⟩, rfl⟩
    exact ⟨hs, hts, rfl⟩
  · rintro ⟨h1, h2, h3⟩
    exact ⟨p.1, ⟨h1, h2⟩, by rw [← h3]⟩

/-! ## The breadth-first strategy matches the declarative description -/

lemma aprioriLevel_eq (db : DB) (hw : WeightsNonneg db) (t : ℚ) :
    ∀ k, aprioriLevel db t k = (freqSets db t).filter (fun s => s.card = k) := by
  intro k
  induction k with
  | zero =>
    ext s
    simp only [aprioriLevel, Finset.mem_filter, Finset.mem_singleton,
      mem_freqSets, Finset.card_eq_zero]
    constructor
    · rintro ⟨rfl, h⟩
      exact ⟨⟨Finset.empty_subset _, h⟩, rfl⟩
    · rintro ⟨⟨_, h⟩, rfl⟩
      exact ⟨rfl, h⟩
  | succ k ih =>
    ext s
    simp only [aprioriLevel, ih, Finset.mem_filter, Finset.mem_biUnion,
      Finset.mem_image, mem_freqSets]
    constructor
    · rintro ⟨⟨s₀, ⟨⟨hsub₀, hfreq₀⟩, hcard₀⟩, i, hi, rfl⟩, hfreq⟩
      have hnot : i ∉ s₀ := fun hmem => lt_irrefl i (hi.2 i hmem)
      refine ⟨⟨Finset.insert_subset hi.1 hsub₀, hfreq⟩, ?_⟩
      rw [Finset.card_insert_of_not_mem hnot, hcard₀]
    · rintro ⟨⟨hsub, hfreq⟩, hcard⟩
      have hne : s.Nonempty := Finset.card_pos.mp (by omega)
      have hi : s.max' hne ∈ s := Finset.max'_mem s hne
      refine ⟨⟨s.erase (s.max' hne),
        ⟨⟨(Finset.erase_subset _ _).trans hsub,
          le_trans hfreq (support_mono db hw (Finset.erase_subset _ _))⟩,
         by simp [Finset.card_erase_of_mem hi, hcard]⟩,
        s.max' hne, ?_, Finset.insert_erase hi⟩, hfreq⟩
      refine ⟨hsub hi, fun j hj => ?_⟩
      rw [Finset.mem_erase] at hj
      exact lt_of_le_of_ne (Finset.le_max' s j hj.2) hj.1

lemma aprioriAll_eq (db : DB) (hw : WeightsNonneg db) (t : ℚ) :
    aprioriAll db t = freqPairs db t := by
  ext p
  simp only [aprioriAll, Finset.mem_biUnion, Finset.mem_range,
    Finset.mem_image, aprioriLevel_eq db hw t, Finset.mem_filter,
    mem_freqSets, mem_freqPairs]
  constructor
  · rintro ⟨k, _, s, ⟨⟨hsub, hfreq⟩, _⟩, rfl⟩
    exact ⟨hsub, hfreq, rfl⟩
  · rintro ⟨h1, h2, h3⟩
    exact ⟨p.1.card, Nat.lt_succ_of_le (Finset.card_le_card h1), p.1,
      ⟨⟨h1, h2⟩, rfl⟩, by rw [← h3]⟩

/-! ## Vertical tid lists: the depth-first strategy's view of the database -/

lemma tidWeight_nil (db : DB) : tidWeight db [] = 0 := rfl

lemma tidWeight_append (db : DB) (l₁ l₂ : List ℕ) :
    tidWeight db (l₁ ++ l₂) = tidWeight db l₁ + tidWeight db l₂ := by
  simp [tidWeight]

lemma tidWeight_map_succ (tw : Finset ℕ × ℚ) (rest : DB) (l : List ℕ) :
    tidWeight (tw :: rest) (l.map Nat.succ) = tidWeight rest l := by
  simp only [tidWeight, List.map_map]
  rfl

lemma tidsFor_cons (tw : Finset ℕ × ℚ) (rest : DB) (s : Finset ℕ) :
    tidsFor (tw :: rest) s =
      (if s ⊆ tw.1 then [0] else []) ++ (tidsFor rest s).map Nat.succ := by
  unfold tidsFor
  rw [List.length_cons, List.range_succ_eq_map, List.filter_cons,
    List.filter_map,
    show ((fun n => decide (s ⊆ tractAt (tw :: rest) n)) ∘ Nat.succ) =
        (fun n => decide (s ⊆ tractAt rest n)) from funext fun n => rfl]
  by_cases h : s ⊆ tw.1 <;> simp [tractAt, h]

/-- The weight carried by the tid list of an itemset is its support: the
vertical view counts exactly what the horizontal scan counts. -/
lemma tidWeight_tidsFor (db : DB) (s : Finset ℕ) :
    tidWeight db (tidsFor db s) = support db s := by
  induction db with
  | nil => rfl
  | cons tw rest ih =>
    rw [tidsFor_cons, tidWeight_append, tidWeight_map_succ, ih, support_cons]
    by_cases h : s ⊆ tw.1
    · simp [h, tidWeight, weightAt, List.get?]
    · simp [h, tidWeight]

lemma mem_vlist {db : DB} {i n : ℕ} :
    n ∈ vlist db i ↔ n < db.length ∧ i ∈ tractAt db n := by
  simp [vlist, List.mem_filter, List.mem_range]

/-- Intersecting the tid list of a prefix with an item's vertical list gives
the tid list of the extended prefix. -/
lemma tidsFor_inter_vlist (db : DB) (s : Finset ℕ) (i : ℕ) :
    (tidsFor db s).inter (vlist db i) = tidsFor db (insert i s) := by
  show (tidsFor db s).filter (fun n => (vlist db i).elem n) = _
  unfold tidsFor
  rw [List.filter_filter]
  refine List.filter_congr ?_
  intro n hn
  rw [List.mem_range] at hn
  simp only [List.elem_eq_mem, mem_vlist, Finset.insert_subset_iff,
    Bool.and_comm, ← Bool.decide_and, decide_eq_decide]
  tauto

lemma tidsFor_empty (db : DB) : tidsFor db ∅ = List.range db.length := by
  unfold tidsFor
  refine List.filter_eq_self.mpr ?_
  intro n _
  simp

/-- Characterization of the depth-first recursion: starting from a prefix and
its tid list, it emits exactly the frequent proper extensions of the prefix
by items of the remaining list, each paired with its support. -/
lemma eclatRec_mem (db : DB) (hw : WeightsNonneg db) (t : ℚ) :
    ∀ (l : List ℕ) (pfx : Finset ℕ) (p : Finset ℕ × ℚ),
      p ∈ eclatRec db t (tidsFor db pfx) pfx l ↔
        ∃ e : Finset ℕ, e.Nonempty ∧ (∀ x ∈ e, x ∈ l) ∧ p.1 = pfx ∪ e ∧
          t ≤ support db p.1 ∧ p.2 = support db p.1 := by
  intro l
  induction l with
  | nil =>
    intro pfx p
    simp only [eclatRec, List.not_mem_nil, false_iff]
    rintro ⟨e, ⟨x, hx⟩, hsub, -⟩
    exact hsub x hx
  | cons i rest ih =>
    intro pfx p
    rw [eclatRec, tidsFor_inter_vlist, tidWeight_tidsFor]
    constructor
    · intro hp
      rcases List.mem_append.mp hp with hmem | hmem
      · by_cases hguard : t ≤ support db (insert i pfx)
        · rw [if_pos hguard] at hmem
          rcases List.mem_cons.mp hmem with rfl | hmem
          · refine ⟨{i}, Finset.singleton_nonempty i, ?_, ?_, ?_, ?_⟩
            · intro x hx
              rw [Finset.mem_singleton] at hx
              exact hx ▸ List.mem_cons_self i rest
            · rw [Finset.union_comm, ← Finset.insert_eq]
            · simpa using hguard
            · simp
          · obtain ⟨e', hne', hsub', h1', hfr', h2'⟩ :=
              (ih (insert i pfx) p).mp hmem
            refine ⟨insert i e', Finset.insert_nonempty i e', ?_, ?_, hfr', h2'⟩
            · intro x hx
              rcases Finset.mem_insert.mp hx with rfl | hx
              · exact List.mem_cons_self x rest
              · exact List.mem_cons_of_mem i (hsub' x hx)
            · rw [h1', Finset.union_insert, Finset.insert_union]
        · rw [if_neg hguard] at hmem
          exact absurd hmem (List.not_mem_nil p)
      · obtain ⟨e, hne, hsub, h1, hfr, h2⟩ := (ih pfx p).mp hmem
        exact ⟨e, hne, fun x hx => List.mem_cons_of_mem i (hsub x hx),
          h1, hfr, h2⟩
    · rintro ⟨e, hne, hsub, h1, hfr, h2⟩
      by_cases hie : i ∈ e
      · have hins : insert i pfx ⊆ pfx ∪ e := by
          rw [Finset.insert_subset_iff]
          exact ⟨Finset.mem_union_right pfx hie, Finset.subset_union_left⟩
        have hguard : t ≤ support db (insert i pfx) :=
          le_trans (h1 ▸ hfr) (support_mono db hw hins)
        rw [if_pos hguard]
        refine List.mem_append.mpr (Or.inl ?_)
        by_cases h0 : e.erase i = ∅
        · have he : e = {i} := by
            rcases (Finset.erase_eq_empty_iff e i).mp h0 with h | h
            · exact absurd (h ▸ hie) (Finset.not_mem_empty i)
            · exact h
          have hp1 : p.1 = insert i pfx := by
            rw [h1, he, Finset.union_comm, ← Finset.insert_eq]
          refine List.mem_cons.mpr (Or.inl ?_)
          have hp2 : p.2 = support db (insert i pfx) := by rw [h2, hp1]
          exact Prod.ext hp1 hp2
        · refine List.mem_cons.mpr (Or.inr ?_)
          refine (ih (insert i pfx) p).mpr
            ⟨e.erase i, Finset.nonempty_iff_ne_empty.mpr h0, ?_, ?_, hfr, h2⟩
          · intro x hx
            rw [Finset.mem_erase] at hx
            rcases List.mem_cons.mp (hsub x hx.2) with h | h
            · exact absurd h hx.1
            · exact h
          · rw [h1, Finset.insert_union, ← Finset.union_insert,
              Finset.insert_erase hie]
      · refine List.mem_append.mpr (Or.inr ?_)
        refine (ih pfx p).mpr ⟨e, hne, ?_, h1, hfr, h2⟩
        intro x hx
        rcases List.mem_cons.mp (hsub x hx) with h | h
        · exact absurd (h ▸ hx) hie
        · exact h

/-- The depth-first strategy produces exactly the declarative
(itemset, support) pairs. -/
lemma eclatAll_toFinset (db : DB) (hw : WeightsNonneg db) (t : ℚ) :
    (eclatAll db t).toFinset = freqPairs db t := by
  ext p
  rw [List.mem_toFinset]
  unfold eclatAll
  rw [List.mem_append, ← tidsFor_empty db, eclatRec_mem db hw t _ ∅ p]
  constructor
  · rintro (hmem | ⟨e, hne, hsub, h1, hfr, h2⟩)
    · by_cases hc : t ≤ totalWeight db
      · rw [if_pos hc] at hmem
        rcases List.mem_cons.mp hmem with rfl | hmem
        · refine mem_freqPairs.mpr ⟨Finset.empty_subset _, ?_, ?_⟩
          · rw [support_empty]; exact hc
          · rw [support_empty]
        · exact absurd hmem (List.not_mem_nil p)
      · rw [if_neg hc] at hmem
        exact absurd hmem (List.not_mem_nil p)
    · rw [Finset.empty_union] at h1
      refine mem_freqPairs.mpr ⟨?_, hfr, h2⟩
      intro x hx
      rw [h1] at hx
      exact (Finset.mem_sort _).mp (hsub x hx)
  · intro hmem
    obtain ⟨hsub, hfr, h2⟩ := mem_freqPairs.mp hmem
    by_cases he : p.1 = ∅
    · left
      have hc : t ≤ totalWeight db := by
        rw [← support_empty, ← he]; exact hfr
      rw [if_pos hc]
      refine List.mem_cons.mpr (Or.inl (Prod.ext he ?_))
      rw [h2, he, support_empty]
    · right
      refine ⟨p.1, Finset.nonempty_iff_ne_empty.mpr he, ?_,
        (Finset.empty_union p.1).symm, hfr, h2⟩
      intro x hx
      exact (Finset.mem_sort _).mpr (hsub hx)

/-! ## The tree-projection strategy matches the declarative description -/

lemma support_append (db₁ db₂ : DB) (s : Finset ℕ) :
    support (db₁ ++ db₂) s = support db₁ s + support db₂ s := by
  induction db₁ with
  | nil => simp [support]
  | cons tw rest ih => simp [support_cons, ih, add_assoc]

lemma project_cons (tw : Finset ℕ × ℚ) (rest : DB) (i : ℕ) :
    project (tw :: rest) i =
      (if i ∈ tw.1 then [(tw.1.erase i, tw.2)] else []) ++ project rest i := by
  by_cases h : i ∈ tw.1 <;> simp [project, List.filter_cons, h]

lemma project_nonneg {db : DB} {i : ℕ} (hw : WeightsNonneg db) :
    WeightsNonneg (project db i) := by
  intro tw htw
  unfold project at htw
  rw [List.mem_map] at htw
  obtain ⟨tw', htw', rfl⟩ := htw
  rw [List.mem_filter] at htw'
  exact hw tw' htw'.1

/-- Support in the conditional database projected onto `i` is the support of
the itemset with `i` put back. -/
lemma support_project (db : DB) {i : ℕ} {s : Finset ℕ} (h : i ∉ s) :
    support (project db i) s = support db (insert i s) := by
  induction db with
  | nil => rfl
  | cons tw rest ih =>
    rw [project_cons, support_append, ih]
    by_cases hi : i ∈ tw.1
    · rw [if_pos hi]
      simp [support_cons, support_nil, support, Finset.subset_erase,
        Finset.insert_subset_iff, h, hi]
    · rw [if_neg hi]
      simp [support, Finset.insert_subset_iff, hi]

/-- Characterization of the tree-projection recursion: over a duplicate-free
item list it emits exactly the nonempty frequent itemsets drawn from that
list, each paired with its support. -/
lemma fpgRec_mem (t : ℚ) :
    ∀ (l : List ℕ), l.Nodup → ∀ (db : DB), WeightsNonneg db →
      ∀ p : Finset ℕ × ℚ,
        p ∈ fpgRec t l db ↔
          (∀ x ∈ p.1, x ∈ l) ∧ p.1.Nonempty ∧ t ≤ support db p.1 ∧
            p.2 = support db p.1 := by
  intro l
  induction l with
  | nil =>
    intro _ db hw p
    simp only [fpgRec, List.not_mem_nil, false_iff]
    rintro ⟨hsub, ⟨x, hx⟩, -⟩
    exact hsub x hx
  | cons i rest ih =>
    intro hnd db hw p
    obtain ⟨hirest, hndrest⟩ := List.nodup_cons.mp hnd
    rw [fpgRec]
    constructor
    · intro hp
      rcases List.mem_append.mp hp with hmem | hmem
      · by_cases hguard : t ≤ support db {i}
        · rw [if_pos hguard] at hmem
          rcases List.mem_cons.mp hmem with rfl | hmem
          · refine ⟨?_, Finset.singleton_nonempty i, by simpa using hguard,
              rfl⟩
            intro x hx
            rw [Finset.mem_singleton] at hx
            exact hx ▸ List.mem_cons_self i rest
          · rw [List.mem_map] at hmem
            obtain ⟨q, hq, rfl⟩ := hmem
            obtain ⟨hsubq, hneq, hfrq, h2q⟩ :=
              (ih hndrest (project db i) (project_nonneg hw) q).mp hq
            have hiq : i ∉ q.1 := fun hmem2 => hirest (hsubq i hmem2)
            have hsupp : support (project db i) q.1 =
                support db (insert i q.1) := support_project db hiq
            refine ⟨?_, Finset.insert_nonempty i q.1, ?_, ?_⟩
            · intro x hx
              rcases Finset.mem_insert.mp hx with rfl | hx
              · exact List.mem_cons_self x rest
              · exact List.mem_cons_of_mem i (hsubq x hx)
            · show t ≤ support db (insert i q.1)
              exact hsupp ▸ hfrq
            · show q.2 = support db (insert i q.1)
              rw [h2q, hsupp]
        · rw [if_neg hguard] at hmem
          exact absurd hmem (List.not_mem_nil p)
      · obtain ⟨hs, hne, hfr, h2⟩ := (ih hndrest db hw p).mp hmem
        exact ⟨fun x hx => List.mem_cons_of_mem i (hs x hx), hne, hfr, h2⟩
    · rintro ⟨hsub, hne, hfr, h2⟩
      by_cases hie : i ∈ p.1
      · have hguard : t ≤ support db {i} :=
          le_trans hfr (support_mono db hw (Finset.singleton_subset_iff.mpr hie))
        rw [if_pos hguard]
        refine List.mem_append.mpr (Or.inl ?_)
        by_cases h0 : p.1.erase i = ∅
        · have hp1 : p.1 = {i} := by
            rcases (Finset.erase_eq_empty_iff p.1 i).mp h0 with h | h
            · exact absurd (h ▸ hie) (Finset.not_mem_empty i)
            · exact h
          exact List.mem_cons.mpr (Or.inl (Prod.ext hp1 (by rw [h2, hp1])))
        · refine List.mem_cons.mpr (Or.inr ?_)
          rw [List.mem_map]
          refine ⟨(p.1.erase i, support (project db i) (p.1.erase i)), ?_, ?_⟩
          · refine (ih hndrest (project db i) (project_nonneg hw) _).mpr
              ⟨?_, Finset.nonempty_iff_ne_empty.mpr h0, ?_, rfl⟩
            · intro x hx
              rw [Finset.mem_erase] at hx
              rcases List.mem_cons.mp (hsub x hx.2) with h | h
              · exact absurd h hx.1
              · exact h
            · show t ≤ support (project db i) (p.1.erase i)
              rw [support_project db (Finset.not_mem_erase i p.1),
                Finset.insert_erase hie]
              exact hfr
          · show (insert i (p.1.erase i),
                support (project db i) (p.1.erase i)) = p
            rw [support_project db (Finset.not_mem_erase i p.1),
              Finset.insert_erase hie]
            exact Prod.ext rfl h2.symm
      · refine List.mem_append.mpr (Or.inr ?_)
        refine (ih hndrest db hw p).mpr ⟨?_, hne, hfr, h2⟩
        intro x hx
        rcases List.mem_cons.mp (hsub x hx) with h | h
        · exact absurd (h ▸ hx) hie
        · exact h

/-- The tree-projection strategy produces exactly the declarative
(itemset, support) pairs. -/
lemma fpgrowthAll_toFinset (db : DB) (hw : WeightsNonneg db) (t : ℚ) :
    (fpgrowthAll db t).toFinset = freqPairs db t := by
  ext p
  rw [List.mem_toFinset]
  unfold fpgrowthAll
  rw [List.mem_append,
    fpgRec_mem t ((items db).sort (fun a b => a ≤ b)) (Finset.sort_nodup _ _)
      db hw p]
  constructor
  · rintro (hmem | ⟨hsub, hne, hfr, h2⟩)
    · by_cases hc : t ≤ totalWeight db
      · rw [if_pos hc] at hmem
        rcases List.mem_cons.mp hmem with rfl | hmem
        · refine mem_freqPairs.mpr ⟨Finset.empty_subset _, ?_, ?_⟩
          · rw [support_empty]; exact hc
          · rw [support_empty]
        · exact absurd hmem (List.not_mem_nil p)
      · rw [if_neg hc] at hmem
        exact absurd hmem (List.not_mem_nil p)
    · refine mem_freqPairs.mpr ⟨?_, hfr, h2⟩
      intro x hx
      exact (Finset.mem_sort _).mp (hsub x hx)
  · intro hmem
    obtain ⟨hsub, hfr, h2⟩ := mem_freqPairs.mp hmem
    by_cases he : p.1 = ∅
    · left
      have hc : t ≤ totalWeight db := by
        rw [← support_empty, ← he]; exact hfr
      rw [if_pos hc]
      refine List.mem_cons.mpr (Or.inl (Prod.ext he ?_))
      rw [h2, he, support_empty]
    · right
      refine ⟨?_, Finset.nonempty_iff_ne_empty.mpr he, hfr, h2⟩
      intro x hx
      exact (Finset.mem_sort _).mpr (hsub hx)

/-! ## The three entry points, reduced to the declarative description -/

lemma mem_sizeFilter {zmin zmax : ℕ} {ps : Finset (Finset ℕ × ℚ)}
    {p : Finset ℕ × ℚ} :
    p ∈ sizeFilter zmin zmax ps ↔
      p ∈ ps ∧ zmin ≤ p.1.card ∧ p.1.card ≤ zmax := by
  simp [sizeFilter, Finset.mem_filter, and_assoc]

lemma apriori_eq_freq (db : DB) (hw : WeightsNonneg db) (supp : ℚ)
    (zmin zmax : ℕ) :
    apriori db supp zmin zmax =
      sizeFilter zmin zmax (freqPairs db (resolveSupp supp (totalWeight db))) := by
  unfold apriori
  rw [aprioriAll_eq db hw]

lemma eclat_eq_freq (db : DB) (hw : WeightsNonneg db) (supp : ℚ)
    (zmin zmax : ℕ) :
    eclat db supp zmin zmax =
      sizeFilter zmin zmax (freqPairs db (resolveSupp supp (totalWeight db))) := by
  unfold eclat
  rw [eclatAll_toFinset db hw]

lemma fpgrowth_eq_freq (db : DB) (hw : WeightsNonneg db) (supp : ℚ)
    (zmin zmax : ℕ) :
    fpgrowth db supp zmin zmax =
      sizeFilter zmin zmax (freqPairs db (resolveSupp supp (totalWeight db))) := by
  unfold fpgrowth
  rw [fpgrowthAll_toFinset db hw]

lemma mem_apriori {db : DB} (hw : WeightsNonneg db) {supp : ℚ}
    {zmin zmax : ℕ} {p : Finset ℕ × ℚ} :
    p ∈ apriori db supp zmin zmax ↔
      p.1 ⊆ items db ∧ zmin ≤ p.1.card ∧ p.1.card ≤ zmax ∧
        resolveSupp supp (totalWeight db) ≤ support db p.1 ∧
        p.2 = support db p.1 := by
  rw [apriori_eq_freq db hw, mem_sizeFilter, mem_freqPairs]
  tauto

lemma mem_eclat {db : DB} (hw : WeightsNonneg db) {supp : ℚ}
    {zmin zmax : ℕ} {p : Finset ℕ × ℚ} :
    p ∈ eclat db supp zmin zmax ↔
      p.1 ⊆ items db ∧ zmin ≤ p.1.card ∧ p.1.card ≤ zmax ∧
        resolveSupp supp (totalWeight db) ≤ support db p.1 ∧
        p.2 = support db p.1 := by
  rw [eclat_eq_freq db hw, mem_sizeFilter, mem_freqPairs]
  tauto

lemma mem_fpgrowth {db : DB} (hw : WeightsNonneg db) {supp : ℚ}
    {zmin zmax : ℕ} {p : Finset ℕ × ℚ} :
    p ∈ fpgrowth db supp zmin zmax ↔
      p.1 ⊆ items db ∧ zmin ≤ p.1.card ∧ p.1.card ≤ zmax ∧
        resolveSupp supp (totalWeight db) ≤ support db p.1 ∧
        p.2 = support db p.1 := by
  rw [fpgrowth_eq_freq db hw, mem_sizeFilter, mem_freqPairs]
  tauto

/-! ## Concrete facts about the `tracts` database of `fltsupp.py` -/

lemma tracts_eq : tracts =
    [([1, 2, 3], 0.5), ([1, 4, 5], 1.2), ([2, 3, 4], 0.8),
     ([1, 2, 3, 4], 1.0), ([2, 3], 1.5), ([1, 2, 4], 0.9), ([4, 5], 0.6),
     ([3, 4, 5], 0.7)] := by rfl

lemma tractsDB_eq : tractsDB =
    [({1, 2, 3}, 0.5), ({1, 4, 5}, 1.2), ({2, 3, 4}, 0.8),
     ({1, 2, 3, 4}, 1.0), ({2, 3}, 1.5), ({1, 2, 4}, 0.9), ({4, 5}, 0.6),
     ({3, 4, 5}, 0.7)] := by rfl

lemma totalWeight_tractsDB : totalWeight tractsDB = 7.2 := by
  rw [tractsDB_eq]
  norm_num [totalWeight]

lemma items_tractsDB : items tractsDB = {1, 2, 3, 4, 5} := by
  rw [tractsDB_eq]
  decide

lemma weightsNonneg_tractsDB : WeightsNonneg tractsDB := by
  intro tw htw
  rw [tractsDB_eq] at htw
  simp only [List.mem_cons, List.not_mem_nil, or_false] at htw
  rcases htw with rfl | rfl | rfl | rfl | rfl | rfl | rfl | rfl <;> norm_num

lemma resolveSupp_tracts : resolveSupp (-1.6) (totalWeight tractsDB) = 1.6 := by
  norm_num [resolveSupp]

lemma support_tracts_23 : support tractsDB {2, 3} = 3.8 := by
  rw [tractsDB_eq]
  norm_num [support, Finset.insert_subset_iff]

lemma support_tracts_1234 : support tractsDB {1, 2, 3, 4} = 1.0 := by
  rw [tractsDB_eq]
  norm_num [support, Finset.insert_subset_iff]

/-! ## The claims -/

/-- C1 counterexample: the claim says the two dict-literal entries sharing
the key (1,2,3,4) record total weight 1.3; in the Python dict the later
entry overwrites the earlier, so the recorded weight is 1.0, not 1.3. -/
theorem claim_C1_counterexample :
    dictLookup tracts [1, 2, 3, 4] = some 1.0 ∧
      dictLookup tracts [1, 2, 3, 4] ≠ some 1.3 := by
  have h0 : dictLookup tracts [1, 2, 3, 4] = some 1.0 := rfl
  refine ⟨h0, fun h => ?_⟩
  rw [h0, Option.some.injEq] at h
  norm_num at h

/-- C1 (amended): in the dict literal of `fltsupp.py` the later duplicate
entry for the key (1,2,3,4) overwrites the earlier one, so the weight
recorded for that transaction is 1.0 (the second entry's weight), and that
is the weighted support the database gives the itemset {1,2,3,4}. -/
theorem claim_C1 :
    dictLookup tracts [1, 2, 3, 4] = some 1.0 ∧
      support tractsDB {1, 2, 3, 4} = 1.0 :=
  ⟨rfl, support_tracts_1234⟩

/-- C2 counterexample: the claim says {2,3} has weighted support
0.5 + 0.8 + 1.3 + 1.5 = 4.1; because the duplicate dict key keeps only
weight 1.0, the support is 0.5 + 0.8 + 1.0 + 1.5 = 3.8. -/
theorem claim_C2_counterexample :
    support tractsDB {2, 3} = 3.8 ∧ support tractsDB {2, 3} ≠ 4.1 := by
  refine ⟨support_tracts_23, fun h => ?_⟩
  rw [support_tracts_23] at h
  norm_num at h

/-- C2 (amended): mining the `tracts` database with absolute support 1.6 and
minimum size 2 returns {2,3} with weighted support 3.8 (not 4.1 — the
duplicate key (1,2,3,4) retains only weight 1.0), and every itemset of size
at least 2 whose weighted support reaches 1.6 appears in the output of each
strategy. -/
theorem claim_C2 :
    support tractsDB {2, 3} = 3.8 ∧
      (({2, 3}, support tractsDB {2, 3}) ∈ apriori tractsDB (-1.6) 2 5 ∧
       ({2, 3}, support tractsDB {2, 3}) ∈ eclat tractsDB (-1.6) 2 5 ∧
       ({2, 3}, support tractsDB {2, 3}) ∈ fpgrowth tractsDB (-1.6) 2 5) ∧
      ∀ s : Finset ℕ, s ⊆ items tractsDB → 2 ≤ s.card →
        (1.6 : ℚ) ≤ support tractsDB s →
          ((s, support tractsDB s) ∈ apriori tractsDB (-1.6) 2 5 ∧
           (s, support tractsDB s) ∈ eclat tractsDB (-1.6) 2 5 ∧
           (s, support tractsDB s) ∈ fpgrowth tractsDB (-1.6) 2 5) := by
  have hcomp : ∀ s : Finset ℕ, s ⊆ items tractsDB → 2 ≤ s.card →
      (1.6 : ℚ) ≤ support tractsDB s →
        ((s, support tractsDB s) ∈ apriori tractsDB (-1.6) 2 5 ∧
         (s, support tractsDB s) ∈ eclat tractsDB (-1.6) 2 5 ∧
         (s, support tractsDB s) ∈ fpgrowth tractsDB (-1.6) 2 5) := by
    intro s hsub hcard hsupp
    have h5 : ({1, 2, 3, 4, 5} : Finset ℕ).card = 5 := by decide
    have hcard5 : s.card ≤ 5 := by
      have hc := Finset.card_le_card hsub
      rw [items_tractsDB, h5] at hc
      exact hc
    have hts : resolveSupp (-1.6) (totalWeight tractsDB) ≤
        support tractsDB s := by
      rw [resolveSupp_tracts]; exact hsupp
    exact ⟨(mem_apriori weightsNonneg_tractsDB).mpr
        ⟨hsub, hcard, hcard5, hts, rfl⟩,
      (mem_eclat weightsNonneg_tractsDB).mpr ⟨hsub, hcard, hcard5, hts, rfl⟩,
      (mem_fpgrowth weightsNonneg_tractsDB).mpr
        ⟨hsub, hcard, hcard5, hts, rfl⟩⟩
  refine ⟨support_tracts_23, hcomp {2, 3} ?_ ?_ ?_, hcomp⟩
  · rw [items_tractsDB]; decide
  · decide
  · rw [support_tracts_23]; norm_num

/-- C2 witness: the hypotheses of the completeness part hold at {2,3}. -/
theorem claim_C2_witness :
    ({2, 3} : Finset ℕ) ⊆ items tractsDB ∧ 2 ≤ ({2, 3} : Finset ℕ).card ∧
      (1.6 : ℚ) ≤ support tractsDB {2, 3} ∧
      ({2, 3}, support tractsDB {2, 3}) ∈ eclat tractsDB (-1.6) 2 5 := by
  have h1 : ({2, 3} : Finset ℕ) ⊆ items tractsDB := by
    rw [items_tractsDB]; decide
  have h2 : 2 ≤ ({2, 3} : Finset ℕ).card := by decide
  have h3 : (1.6 : ℚ) ≤ support tractsDB {2, 3} := by
    rw [support_tracts_23]; norm_num
  exact ⟨h1, h2, h3, (claim_C2.2.2 {2, 3} h1 h2 h3).2.1⟩

/-- C3: under every strategy, every reported pair carries the weighted
support of its itemset (the sum of the weights of the containing
transactions) and that support reaches the resolved threshold; no itemset
whose weighted support is below the threshold ever appears. -/
theorem claim_C3 :
    ∀ (db : DB) (supp : ℚ) (zmin zmax : ℕ), WeightsNonneg db →
      ((∀ p ∈ apriori db supp zmin zmax,
          p.2 = support db p.1 ∧ resolveSupp supp (totalWeight db) ≤ p.2) ∧
        ∀ (s : Finset ℕ) (w : ℚ),
          support db s < resolveSupp supp (totalWeight db) →
            (s, w) ∉ apriori db supp zmin zmax) ∧
      ((∀ p ∈ eclat db supp zmin zmax,
          p.2 = support db p.1 ∧ resolveSupp supp (totalWeight db) ≤ p.2) ∧
        ∀ (s : Finset ℕ) (w : ℚ),
          support db s < resolveSupp supp (totalWeight db) →
            (s, w) ∉ eclat db supp zmin zmax) ∧
      ((∀ p ∈ fpgrowth db supp zmin zmax,
          p.2 = support db p.1 ∧ resolveSupp supp (totalWeight db) ≤ p.2) ∧
        ∀ (s : Finset ℕ) (w : ℚ),
          support db s < resolveSupp supp (totalWeight db) →
            (s, w) ∉ fpgrowth db supp zmin zmax) := by
  intro db supp zmin zmax hw
  refine ⟨⟨?_, ?_⟩, ⟨?_, ?_⟩, ?_, ?_⟩
  · intro p hp
    obtain ⟨-, -, -, hts, hsnd⟩ := (mem_apriori hw).mp hp
    exact ⟨hsnd, hsnd ▸ hts⟩
  · intro s w hlt hmem
    obtain ⟨-, -, -, hts, -⟩ := (mem_apriori hw).mp hmem
    exact absurd hts (not_le.mpr hlt)
  · intro p hp
    obtain ⟨-, -, -, hts, hsnd⟩ := (mem_eclat hw).mp hp
    exact ⟨hsnd, hsnd ▸ hts⟩
  · intro s w hlt hmem
    obtain ⟨-, -, -, hts, -⟩ := (mem_eclat hw).mp hmem
    exact absurd hts (not_le.mpr hlt)
  · intro p hp
    obtain ⟨-, -, -, hts, hsnd⟩ := (mem_fpgrowth hw).mp hp
    exact ⟨hsnd, hsnd ▸ hts⟩
  · intro s w hlt hmem
    obtain ⟨-, -, -, hts, -⟩ := (mem_fpgrowth hw).mp hmem
    exact absurd hts (not_le.mpr hlt)

/-- C3 witness: the soundness half applied to a concrete member of the
apriori output on the `tracts` database. -/
theorem claim_C3_witness :
    (({2, 3} : Finset ℕ), support tractsDB {2, 3}).2 =
        support tractsDB (({2, 3} : Finset ℕ), support tractsDB {2, 3}).1 ∧
      resolveSupp (-1.6) (totalWeight tractsDB) ≤
        (({2, 3} : Finset ℕ), support tractsDB {2, 3}).2 := by
  have hmem : ({2, 3}, support tractsDB {2, 3}) ∈
      apriori tractsDB (-1.6) 2 5 := by
    refine (mem_apriori weightsNonneg_tractsDB).mpr
      ⟨by rw [items_tractsDB]; decide, by decide, by decide, ?_, rfl⟩
    rw [resolveSupp_tracts, support_tracts_23]; norm_num
  exact (claim_C3 tractsDB (-1.6) 2 5 weightsNonneg_tractsDB).1.1 _ hmem

/-- C4: the breadth-first, depth-first vertical-intersection and
tree-projection strategies return the same set of (itemset, support) pairs
on every database and threshold; in particular the three calls of
`fltsupp.py` agree on the `tracts` database. -/
theorem claim_C4 :
    (∀ (db : DB) (supp : ℚ) (zmin zmax : ℕ), WeightsNonneg db →
        apriori db supp zmin zmax = eclat db supp zmin zmax ∧
        eclat db supp zmin zmax = fpgrowth db supp zmin zmax) ∧
      (apriori tractsDB (-1.6) 2 5 = eclat tractsDB (-1.6) 2 5 ∧
       eclat tractsDB (-1.6) 2 5 = fpgrowth tractsDB (-1.6) 2 5) := by
  have h : ∀ (db : DB) (supp : ℚ) (zmin zmax : ℕ), WeightsNonneg db →
      apriori db supp zmin zmax = eclat db supp zmin zmax ∧
      eclat db supp zmin zmax = fpgrowth db supp zmin zmax := by
    intro db supp zmin zmax hw
    rw [apriori_eq_freq db hw, eclat_eq_freq db hw, fpgrowth_eq_freq db hw]
    exact ⟨rfl, rfl⟩
  exact ⟨h, h tractsDB (-1.6) 2 5 weightsNonneg_tractsDB⟩

/-- C4 witness: the strategy agreement instantiated on the `tracts`
database. -/
theorem claim_C4_witness :
    apriori tractsDB (-1.6) 2 5 = eclat tractsDB (-1.6) 2 5 :=
  (claim_C4.1 tractsDB (-1.6) 2 5 weightsNonneg_tractsDB).1

/-- C5: a negative support argument is an absolute minimum weighted count
(each strategy then mines at absolute threshold `-supp`), a non-negative one
a percentage of the total transaction weight; `supp = -1.6` resolves to the
absolute threshold 1.6. -/
theorem claim_C5 :
    (∀ supp total : ℚ, supp < 0 → resolveSupp supp total = -supp) ∧
      (∀ supp total : ℚ, 0 ≤ supp →
        resolveSupp supp total = supp / 100 * total) ∧
      (∀ (db : DB) (supp : ℚ) (zmin zmax : ℕ), supp < 0 →
        apriori db supp zmin zmax =
            sizeFilter zmin zmax (aprioriAll db (-supp)) ∧
          eclat db supp zmin zmax =
            sizeFilter zmin zmax (eclatAll db (-supp)).toFinset ∧
          fpgrowth db supp zmin zmax =
            sizeFilter zmin zmax (fpgrowthAll db (-supp)).toFinset) ∧
      resolveSupp (-1.6) (totalWeight tractsDB) = 1.6 := by
  have h1 : ∀ supp total : ℚ, supp < 0 → resolveSupp supp total = -supp := by
    intro supp total h
    rw [resolveSupp, if_pos h]
  refine ⟨h1, ?_, ?_, resolveSupp_tracts⟩
  · intro supp total h
    rw [resolveSupp, if_neg (not_lt.mpr h)]
  · intro db supp zmin zmax h
    unfold apriori eclat fpgrowth
    rw [h1 supp (totalWeight db) h]
    exact ⟨rfl, rfl, rfl⟩

/-- C5 witness: the negative-threshold convention evaluated at the call of
`fltsupp.py`. -/
theorem claim_C5_witness :
    (-1.6 : ℚ) < 0 ∧ resolveSupp (-1.6) 7.2 = 1.6 := by
  refine ⟨by norm_num, ?_⟩
  rw [claim_C5.1 (-1.6) 7.2 (by norm_num)]
  norm_num

/-- C6: an itemset whose weighted support equals the resolved threshold
exactly is reported by every strategy — the threshold is an inclusive lower
bound. -/
theorem claim_C6 :
    ∀ (db : DB) (supp : ℚ) (zmin zmax : ℕ) (s : Finset ℕ),
      WeightsNonneg db → s ⊆ items db → zmin ≤ s.card → s.card ≤ zmax →
        support db s = resolveSupp supp (totalWeight db) →
          ((s, support db s) ∈ apriori db supp zmin zmax ∧
           (s, support db s) ∈ eclat db supp zmin zmax ∧
           (s, support db s) ∈ fpgrowth db supp zmin zmax) := by
  intro db supp zmin zmax s hw hsub h1 h2 heq
  have hts : resolveSupp supp (totalWeight db) ≤ support db s :=
    le_of_eq heq.symm
  exact ⟨(mem_apriori hw).mpr ⟨hsub, h1, h2, hts, rfl⟩,
    (mem_eclat hw).mpr ⟨hsub, h1, h2, hts, rfl⟩,
    (mem_fpgrowth hw).mpr ⟨hsub, h1, h2, hts, rfl⟩⟩

/-- C6 witness: on a one-transaction database of weight 1.6, the itemset
{1,2} has support exactly equal to the resolved threshold of `supp = -1.6`
and is reported. -/
theorem claim_C6_witness :
    support oneTractDB {1, 2} = resolveSupp (-1.6) (totalWeight oneTractDB) ∧
      ({1, 2}, support oneTractDB {1, 2}) ∈ eclat oneTractDB (-1.6) 2 2 := by
  have hw : WeightsNonneg oneTractDB := by
    intro tw htw
    simp only [oneTractDB, List.mem_cons, List.not_mem_nil, or_false] at htw
    rw [htw]
    norm_num
  have heq : support oneTractDB {1, 2} =
      resolveSupp (-1.6) (totalWeight oneTractDB) := by
    norm_num [oneTractDB, support, totalWeight, resolveSupp]
  refine ⟨heq, (claim_C6 oneTractDB (-1.6) 2 2 {1, 2} hw ?_ ?_ ?_ heq).2.1⟩
  · intro x hx
    simp only [items, oneTractDB] at *
    simpa using hx
  · decide
  · decide

lemma mem_rulesFor {db : DB} {minconf : ℚ} {s : Finset ℕ} {r : Rule} :
    r ∈ rulesFor db minconf s ↔
      2 ≤ s.card ∧ ∃ a, a ⊆ s ∧ a ≠ ∅ ∧ a ≠ s ∧
        minconf ≤ support db s / support db a ∧
        r = ⟨a, s \ a, support db s, support db s / support db a⟩ := by
  unfold rulesFor
  by_cases h : 2 ≤ s.card
  · rw [if_pos h]
    simp only [Finset.mem_image, Finset.mem_filter, Finset.mem_powerset]
    constructor
    · rintro ⟨a, ⟨hsub, hne, hns, hconf⟩, rfl⟩
      exact ⟨h, a, hsub, hne, hns, hconf, rfl⟩
    · rintro ⟨-, a, hsub, hne, hns, hconf, rfl⟩
      exact ⟨a, ⟨hsub, hne, hns, hconf⟩, rfl⟩
  · rw [if_neg h]
    simp [h]

/-- C7: every generated rule's confidence field equals
support(itemset) / support(antecedent) (the itemset being antecedent joined
with consequent), and reaches the configured minimum confidence — rules
below it are discarded, never emitted. -/
theorem claim_C7 :
    ∀ (db : DB) (t minconf : ℚ) (r : Rule), r ∈ genRules db t minconf →
      r.conf = support db (r.ante ∪ r.cons) / support db r.ante ∧
        minconf ≤ r.conf := by
  intro db t minconf r hr
  rw [genRules, Finset.mem_biUnion] at hr
  obtain ⟨s, _, hr⟩ := hr
  obtain ⟨-, a, hsub, -, -, hconf, rfl⟩ := mem_rulesFor.mp hr
  constructor
  · show support db s / support db a =
      support db (a ∪ (s \ a)) / support db a
    rw [Finset.union_sdiff_of_subset hsub]
  · exact hconf

/-- C7 witness: on a one-transaction database the rule {1} → {2} is
generated with confidence 1, which satisfies its characterization. -/
theorem claim_C7_witness :
    (⟨{1}, {1, 2} \ {1}, support ruleDB {1, 2},
        support ruleDB {1, 2} / support ruleDB {1}⟩ : Rule) ∈
        genRules ruleDB 1 0.5 ∧
      (support ruleDB {1, 2} / support ruleDB {1} =
          support ruleDB (({1} : Finset ℕ) ∪ ({1, 2} \ {1})) /
            support ruleDB {1} ∧
        (0.5 : ℚ) ≤ support ruleDB {1, 2} / support ruleDB {1}) := by
  have hset : ({1, 2} : Finset ℕ) ∈ freqSets ruleDB 1 := by
    rw [mem_freqSets]
    refine ⟨by decide, ?_⟩
    norm_num [support, ruleDB]
  have hmem : (⟨{1}, {1, 2} \ {1}, support ruleDB {1, 2},
      support ruleDB {1, 2} / support ruleDB {1}⟩ : Rule) ∈
      genRules ruleDB 1 0.5 := by
    rw [genRules, Finset.mem_biUnion]
    refine ⟨{1, 2}, hset, mem_rulesFor.mpr
      ⟨by decide, {1}, by decide, by decide, by decide, ?_, rfl⟩⟩
    norm_num [support, ruleDB, Finset.insert_subset_iff]
  exact ⟨hmem, claim_C7 ruleDB 1 0.5 _ hmem⟩

/-- C8: the `tid` dispatch of `fltsupp.py` is total and exclusive over the
integers — each branch fires exactly on the stated values. -/
theorem claim_C8 :
    ∀ tid : ℤ,
      (dispatch tid = Branch.printFpgrowthDoc ↔ tid < -2) ∧
      (dispatch tid = Branch.printEclatDoc ↔ tid = -2) ∧
      (dispatch tid = Branch.printAprioriDoc ↔ tid = -1) ∧
      (dispatch tid = Branch.runApriori ↔ tid = 0) ∧
      (dispatch tid = Branch.runEclat ↔ tid = 1) ∧
      (dispatch tid = Branch.runFpgrowth ↔ tid = 2) ∧
      (dispatch tid = Branch.runFim ↔ 3 ≤ tid) := by
  intro tid
  unfold dispatch
  split_ifs with h1 h2 h3 h4 h5 h6 <;>
    refine ⟨?_, ?_, ?_, ?_, ?_, ?_, ?_⟩ <;> simp <;> omega

/-- C8 witness: the dispatch evaluated on representatives of the branches. -/
theorem claim_C8_witness :
    dispatch 0 = Branch.runApriori ∧ dispatch (-2) = Branch.printEclatDoc ∧
      dispatch 3 = Branch.runFim :=
  ⟨((claim_C8 0).2.2.2.1).mpr rfl, ((claim_C8 (-2)).2.1).mpr rfl,
   ((claim_C8 3).2.2.2.2.2.2).mpr (by norm_num)⟩

/-- C9: when `argv[1]` is absent the script fails with IndexError, when it
does not parse as an integer it fails with ValueError, and a branch (doc
printing or mining) is reached only when both steps succeed. -/
theorem claim_C9 :
    ∀ argv : List String,
      (argv.get? 1 = none → script argv = Except.error ScriptErr.indexError) ∧
      (∀ a, argv.get? 1 = some a → parseInt a = none →
        script argv = Except.error ScriptErr.valueError) ∧
      (∀ b : Branch, script argv = Except.ok b →
        ∃ a tid, argv.get? 1 = some a ∧ parseInt a = some tid ∧
          b = dispatch tid) := by
  intro argv
  refine ⟨?_, ?_, ?_⟩
  · intro h
    unfold script
    rw [h]
  · intro a h hp
    unfold script
    rw [h]
    show (match parseInt a with
      | none => Except.error ScriptErr.valueError
      | some tid => Except.ok (dispatch tid)) =
        Except.error ScriptErr.valueError
    rw [hp]
  · intro b hb
    unfold script at hb
    cases hget : argv.get? 1 with
    | none =>
      rw [hget] at hb
      exact absurd hb (by simp)
    | some a =>
      rw [hget] at hb
      have hb2 : (match parseInt a with
          | none => Except.error ScriptErr.valueError
          | some tid => Except.ok (dispatch tid)) = Except.ok b := hb
      cases hp : parseInt a with
      | none =>
        rw [hp] at hb2
        simp at hb2
      | some tid =>
        rw [hp] at hb2
        simp only [Except.ok.injEq] at hb2
        exact ⟨a, tid, rfl, hp, hb2.symm⟩

/-- C9 witness: a one-element argv raises IndexError, a non-numeric
`argv[1]` raises ValueError; neither run reaches a branch. -/
theorem claim_C9_witness :
    List.get? ["fltsupp.py"] 1 = none ∧
      script ["fltsupp.py"] = Except.error ScriptErr.indexError ∧
      parseInt "abc" = none ∧
      script ["fltsupp.py", "abc"] = Except.error ScriptErr.valueError := by
  have h1 : List.get? ["fltsupp.py"] 1 = none := rfl
  have h2 : parseInt "abc" = none := rfl
  exact ⟨h1, (claim_C9 ["fltsupp.py"]).1 h1, h2,
    (claim_C9 ["fltsupp.py", "abc"]).2.1 "abc" rfl h2⟩

/-- C10: `setup.py` creates `MANIFEST.in` (one include line per header) and
`README` before `setup()` is called, and removes both afterwards, so neither
survives the run, whatever `setup()` itself did to the file system. -/
theorem claim_C10 :
    ∀ (eff : FS → FS) (fs0 : FS),
      (setupRun eff fs0).1 "MANIFEST.in" = some manifestLines ∧
      (setupRun eff fs0).1 "README" ≠ none ∧
      (setupRun eff fs0).2 "MANIFEST.in" = none ∧
      (setupRun eff fs0).2 "README" = none ∧
      manifestLines.length = headers.length ∧
      ∀ h ∈ headers, ("include " ++ h ++ "\n") ∈ manifestLines := by
  intro eff fs0
  refine ⟨?_, ?_, ?_, ?_, List.length_map _ _, ?_⟩
  · show fsWrite (fsWrite fs0 "MANIFEST.in" manifestLines) "README"
        readmeLines "MANIFEST.in" = some manifestLines
    unfold fsWrite
    rw [if_neg (by decide), if_pos rfl]
  · show fsWrite (fsWrite fs0 "MANIFEST.in" manifestLines) "README"
        readmeLines "README" ≠ none
    unfold fsWrite
    rw [if_pos rfl]
    exact Option.some_ne_none _
  · show fsRemove (fsRemove
        (eff (fsWrite (fsWrite fs0 "MANIFEST.in" manifestLines) "README"
          readmeLines)) "MANIFEST.in") "README" "MANIFEST.in" = none
    unfold fsRemove
    rw [if_neg (by decide), if_pos rfl]
  · show fsRemove (fsRemove
        (eff (fsWrite (fsWrite fs0 "MANIFEST.in" manifestLines) "README"
          readmeLines)) "MANIFEST.in") "README" "README" = none
    unfold fsRemove
    rw [if_pos rfl]
  · intro h hmem
    exact List.mem_map_of_mem _ hmem

/-- C10 witness: on an empty initial file system with an identity `setup()`
effect, neither generated file persists. -/
theorem claim_C10_witness :
    (setupRun id (fun _ => none)).2 "MANIFEST.in" = none ∧
      (setupRun id (fun _ => none)).2 "README" = none :=
  ⟨(claim_C10 id (fun _ => none)).2.2.1,
   (claim_C10 id (fun _ => none)).2.2.2.1⟩

end PyFim
